import Mathlib

/-
Verification of the marketplace scoring pipeline.

The Rust code computes everything over `f64`. We embed the arithmetic
exactly: functions that use only field operations, comparisons, `abs`,
`max`/`min` and clamping are modelled over `ℚ` (computable, decidable);
the two functions that use `powf` and `sqrt` (`graph_value` and
`power_iteration`) are modelled over `ℝ` with `Real.rpow` and
`Real.sqrt`.  Fixed-size `[f64; N]` arrays are modelled as `List ℚ`
(entry order preserved) for `normalize_ec` and as `Fin n → ℝ` for the
power iteration.  The float literal `1e-15` denotes the exact rational
10⁻¹⁵, likewise `1e-10`.
-/

namespace Marketplace

/-- Default minimum reputation (reputation.rs, `R_MIN`). -/
def R_MIN : ℚ := 1 / 10

/-- Default maximum reputation (reputation.rs, `R_MAX`). -/
def R_MAX : ℚ := 5

/-- Clamp a rating to the valid range (reputation.rs, `clamp_rating`);
Rust `f64::clamp(R_MIN, R_MAX)` returns `R_MIN` when below it, `R_MAX`
when above it, and the input otherwise. -/
def clamp_rating (rating : ℚ) : ℚ :=
  if rating < R_MIN then R_MIN
  else if R_MAX < rating then R_MAX
  else rating

/-- Update reputation after a transaction (reputation.rs,
`update_reputation`).  The transaction count is a Rust `u64`, embedded
as `ℕ` and cast to the numeric field exactly as `num_transactions as f64`. -/
def update_reputation (current_reputation : ℚ) (num_transactions : ℕ)
    (reviewer_graph_value : ℚ) (rating : ℚ) : ℚ :=
  let rating := clamp_rating rating
  let n : ℚ := num_transactions
  let numerator := n * current_reputation + reviewer_graph_value * rating
  let denominator := n + 1
  if denominator < 1e-15 then current_reputation
  else numerator / denominator

/-- Mutual reputation update after a transaction (reputation.rs,
`mutual_update`): returns `(new_producer_reputation, new_buyer_reputation)`. -/
def mutual_update (producer_rep : ℚ) (producer_tx_count : ℕ)
    (producer_graph_value : ℚ) (producer_rates_buyer : ℚ)
    (buyer_rep : ℚ) (buyer_tx_count : ℕ)
    (buyer_graph_value : ℚ) (buyer_rates_producer : ℚ) : ℚ × ℚ :=
  let new_producer_rep := update_reputation producer_rep producer_tx_count
    buyer_graph_value buyer_rates_producer
  let new_buyer_rep := update_reputation buyer_rep buyer_tx_count
    producer_graph_value producer_rates_buyer
  (new_producer_rep, new_buyer_rep)

/-- Graph value for a single producer (graph.rs, `graph_value`):
`W^x̄ · x^(1-x̄) · r`, guarded to 0 on non-positive weight, raw
centrality or reputation.  `powf` is embedded as `Real.rpow`. -/
noncomputable def graph_value (total_weight : ℝ) (normalized_ec : ℝ)
    (raw_ec : ℝ) (reputation : ℝ) : ℝ :=
  if total_weight ≤ 0 ∨ raw_ec ≤ 0 ∨ reputation ≤ 0 then 0
  else
    let weight_term := total_weight ^ normalized_ec
    let ec_term := raw_ec ^ (1 - normalized_ec)
    weight_term * ec_term * reputation

/-- Normalize graph values to sum to 1.0 (graph.rs,
`normalize_graph_values`): each `(index, value)` pair keeps its index and
gets its value divided by the batch total, or 0 when the total is below
`1e-15`. -/
def normalize_graph_values (gvs : List (ℕ × ℚ)) : List (ℕ × ℚ) :=
  let total : ℚ := (gvs.map fun p => p.2).sum
  if total < 1e-15 then gvs.map fun p => (p.1, 0)
  else gvs.map fun p => (p.1, p.2 / total)

/-- Performance multiplier α (graph.rs, `performance_multiplier`):
`max(0, 1 + 2·(ΔG/ΔW − avg)/(|ΔG/ΔW| + |avg|))` with the two guards of
the source. -/
def performance_multiplier (delta_g : ℚ) (delta_w : ℚ) (avg : ℚ) : ℚ :=
  if |delta_w| < 1e-15 then 0
  else
    let user_ratio := delta_g / delta_w
    let numerator := user_ratio - avg
    let denominator := |user_ratio| + |avg|
    if denominator < 1e-15 then 1
    else
      let b_u := 2 * numerator / denominator
      max (1 + b_u) 0

/-- Matrix squaring (ec.rs, `square_matrix`): dense A·A product. -/
noncomputable def square_matrix {n : ℕ} (matrix : Fin n → Fin n → ℝ) :
    Fin n → Fin n → ℝ :=
  fun i j => ∑ k, matrix i k * matrix k j

/-- The iteration loop of ec.rs `power_iteration`, with the remaining
iteration budget made explicit (the source runs `for _ in 0..1000`).
Each round multiplies by the squared matrix, breaks with the old iterate
when the L2 norm of the product is below `1e-15`, otherwise renormalizes
and breaks with the new iterate when it moved less than `1e-10`. -/
noncomputable def power_iteration_loop {n : ℕ} (msq : Fin n → Fin n → ℝ) :
    ℕ → (Fin n → ℝ) → (Fin n → ℝ)
  | 0, x => x
  | fuel + 1, x =>
      let x_new : Fin n → ℝ := fun i => ∑ j, msq i j * x j
      let norm : ℝ := Real.sqrt (∑ i, x_new i * x_new i)
      if norm < 1e-15 then x
      else
        let x_unit : Fin n → ℝ := fun i => x_new i / norm
        let diff : ℝ := Real.sqrt (∑ i, (x i - x_unit i) ^ 2)
        if diff < 1e-10 then x_unit
        else power_iteration_loop msq fuel x_unit

/-- Eigenvector centrality by power iteration on A² (ec.rs,
`power_iteration`): start from the all-ones vector, loop at most 1000
times, and take the element-wise absolute value of the result. -/
noncomputable def power_iteration {n : ℕ} (matrix : Fin n → Fin n → ℝ) :
    Fin n → ℝ :=
  fun i => |power_iteration_loop (square_matrix matrix) 1000 (fun _ => 1) i|

/-- Normalize EC scores by the maximum entry (ec.rs, `normalize_ec`);
the Rust fold `iter().cloned().fold(0.0, f64::max)` is `List.foldl max 0`. -/
def normalize_ec (ec : List ℚ) : List ℚ :=
  let x_max := ec.foldl max 0
  if x_max < 1e-15 then ec
  else ec.map fun v => v / x_max

/-! ### Helper lemmas -/

theorem list_sum_map_div (l : List ℚ) (c : ℚ) :
    (l.map fun v => v / c).sum = l.sum / c := by
  induction l with
  | nil => simp
  | cons h t ih => simp [ih, add_div]

theorem le_foldl_max (l : List ℚ) (a : ℚ) : a ≤ l.foldl max a := by
  induction l generalizing a with
  | nil => exact le_refl a
  | cons h t ih => exact le_trans (le_max_left a h) (ih (max a h))

theorem mem_le_foldl_max (l : List ℚ) (a : ℚ) :
    ∀ v ∈ l, v ≤ l.foldl max a := by
  induction l generalizing a with
  | nil => intro v hv; exact absurd hv (List.not_mem_nil v)
  | cons h t ih =>
      intro v hv
      rcases List.mem_cons.mp hv with rfl | hv
      · exact le_trans (le_max_right a v) (le_foldl_max t (max a v))
      · exact ih (max a h) v hv

theorem foldl_max_mem (l : List ℚ) (a : ℚ) :
    l.foldl max a = a ∨ l.foldl max a ∈ l := by
  induction l generalizing a with
  | nil => exact Or.inl rfl
  | cons h t ih =>
      rcases ih (max a h) with heq | hmem
      · rcases max_choice a h with hc | hc
        · exact Or.inl (by rw [List.foldl_cons, heq, hc])
        · exact Or.inr (by rw [List.foldl_cons, heq, hc]; exact List.mem_cons_self h t)
      · exact Or.inr (List.mem_cons_of_mem h hmem)

/-! ### Claims about the reputation tracker -/

/-- C1 counterexample: with reviewer graph value 2 and rating 5, the
first rating produces reputation 10, not `clamp_rating 5 = 5`, so the
first observation is not independent of the reviewer's graph value. -/
theorem first_rating_not_clamp_counterexample :
    update_reputation 0 0 2 5 = 10 ∧ clamp_rating 5 = 5 ∧ (10 : ℚ) ≠ 5 := by
  refine ⟨?_, ?_, by norm_num⟩ <;>
    norm_num [update_reputation, clamp_rating, R_MIN, R_MAX]

/-- C1 (amended): a node's first received rating sets its reputation to
the reviewer's graph value times the clamped rating,
`update_reputation r 0 G rating = G * clamp_rating rating`. -/
theorem update_reputation_first_rating (r G rating : ℚ) :
    update_reputation r 0 G rating = G * clamp_rating rating := by
  simp [update_reputation]
  norm_num

/-- C1 witness at r = 7, G = 3, rating = 2. -/
theorem update_reputation_first_rating_witness :
    update_reputation 7 0 3 2 = 3 * clamp_rating 2 :=
  update_reputation_first_rating 7 3 2

/-- C5: for every input, `update_reputation` computes exactly
`(N·r + G·clamp(rating)) / (N + 1)`, and the near-zero-denominator guard
is unreachable since `N + 1 ≥ 1` for the unsigned count. -/
theorem update_reputation_closed_form (r G rating : ℚ) (n : ℕ) :
    update_reputation r n G rating
      = ((n : ℚ) * r + G * clamp_rating rating) / ((n : ℚ) + 1)
    ∧ ¬ ((n : ℚ) + 1 < 1e-15) := by
  have hge : (1 : ℚ) ≤ (n : ℚ) + 1 := le_add_of_nonneg_left (Nat.cast_nonneg n)
  have hguard : ¬ ((n : ℚ) + 1 < 1e-15) := by
    intro hlt
    have : (1 : ℚ) < 1e-15 := lt_of_le_of_lt hge hlt
    norm_num at this
  exact ⟨by rw [update_reputation, if_neg hguard], hguard⟩

/-- C5 witness at r = 3, G = 2, rating = 4, n = 1. -/
theorem update_reputation_closed_form_witness :
    update_reputation 3 2 1 4 = ((2 : ℚ) * 3 + 1 * clamp_rating 4) / ((2 : ℚ) + 1)
    ∧ ¬ (((2 : ℕ) : ℚ) + 1 < 1e-15) :=
  ⟨by exact_mod_cast (update_reputation_closed_form 3 1 4 2).1,
   (update_reputation_closed_form 3 1 4 2).2⟩

/-- C9: `mutual_update` is definitionally the pair of independent
single-sided updates, each weighting by the other party's
pre-transaction graph value. -/
theorem mutual_update_eq_pair (producer_rep : ℚ) (producer_tx_count : ℕ)
    (producer_graph_value : ℚ) (producer_rates_buyer : ℚ)
    (buyer_rep : ℚ) (buyer_tx_count : ℕ)
    (buyer_graph_value : ℚ) (buyer_rates_producer : ℚ) :
    mutual_update producer_rep producer_tx_count producer_graph_value
        producer_rates_buyer buyer_rep buyer_tx_count buyer_graph_value
        buyer_rates_producer
      = (update_reputation producer_rep producer_tx_count buyer_graph_value
           buyer_rates_producer,
         update_reputation buyer_rep buyer_tx_count producer_graph_value
           producer_rates_buyer) := rfl

/-- C9 witness at concrete inputs. -/
theorem mutual_update_eq_pair_witness :
    mutual_update 1 2 3 4 5 6 7 8
      = (update_reputation 1 2 7 8, update_reputation 5 6 3 4) :=
  mutual_update_eq_pair 1 2 3 4 5 6 7 8

/-- C10: the rating clamp does not bound the updated reputation; with
current reputation 0.1 ∈ [R_MIN, R_MAX], rating 5 ∈ [R_MIN, R_MAX] and
reviewer graph value 2.45, the result is 12.25 > R_MAX. -/
theorem update_reputation_exceeds_R_MAX :
    (R_MIN ≤ (1 / 10 : ℚ) ∧ (1 / 10 : ℚ) ≤ R_MAX)
    ∧ (R_MIN ≤ (5 : ℚ) ∧ (5 : ℚ) ≤ R_MAX)
    ∧ update_reputation (1 / 10) 0 (49 / 20) 5 = 49 / 4
    ∧ R_MAX < 49 / 4 := by
  refine ⟨⟨?_, ?_⟩, ⟨?_, ?_⟩, ?_, ?_⟩ <;>
    norm_num [update_reputation, clamp_rating, R_MIN, R_MAX]

/-! ### Claims about the graph value calculator -/

/-- C4 counterexample: with ΔW = 1, ΔG = 9·10⁻¹⁶ and avg = 3·10⁻¹⁶, the
ratio and the average are each within 1e-15 of zero, yet the multiplier
is 2, not 1: the code's guard tests the sum `|ratio| + |avg| < 1e-15`,
which fails here. -/
theorem performance_multiplier_near_zero_counterexample :
    1e-15 ≤ |(1 : ℚ)|
    ∧ |(9 / 10 ^ 16 : ℚ) / 1| < 1e-15
    ∧ |(3 / 10 ^ 16 : ℚ)| < 1e-15
    ∧ performance_multiplier (9 / 10 ^ 16) 1 (3 / 10 ^ 16) = 2
    ∧ (2 : ℚ) ≠ 1 := by
  refine ⟨by norm_num,
    by rw [abs_of_nonneg (by norm_num)]; norm_num,
    by rw [abs_of_nonneg (by norm_num)]; norm_num, ?_, by norm_num⟩
  norm_num [performance_multiplier, abs_of_nonneg, max_def]

/-- C4 (amended): `performance_multiplier` returns exactly 0 whenever
`|ΔW| < 1e-15`, and returns exactly 1 whenever `|ΔW| ≥ 1e-15` and the
sum `|ΔG/ΔW| + |avg|` is below 1e-15 (the code's denominator guard). -/
theorem performance_multiplier_guards (delta_g delta_w avg : ℚ) :
    (|delta_w| < 1e-15 → performance_multiplier delta_g delta_w avg = 0)
    ∧ (1e-15 ≤ |delta_w| → |delta_g / delta_w| + |avg| < 1e-15 →
        performance_multiplier delta_g delta_w avg = 1) := by
  constructor
  · intro h
    rw [performance_multiplier, if_pos h]
  · intro hw hden
    rw [performance_multiplier, if_neg (not_lt.mpr hw)]
    simp only
    rw [if_pos hden]

/-- C4 witness: both guards hit at concrete inputs. -/
theorem performance_multiplier_guards_witness :
    (|(0 : ℚ)| < 1e-15 ∧ performance_multiplier 3 0 2 = 0)
    ∧ (1e-15 ≤ |(1 : ℚ)| ∧ |(0 : ℚ) / 1| + |(0 : ℚ)| < 1e-15
        ∧ performance_multiplier 0 1 0 = 1) :=
  ⟨⟨by norm_num, (performance_multiplier_guards 3 0 2).1 (by norm_num)⟩,
   ⟨by norm_num, by norm_num,
    (performance_multiplier_guards 0 1 0).2 (by norm_num) (by norm_num)⟩⟩

/-- C6: when the batch total is at least 1e-15, `normalize_graph_values`
divides every value by the total (the outputs then sum exactly to 1)
keeping indices in order; when the total is below 1e-15, every value is
replaced by 0 with indices kept in order. -/
theorem normalize_graph_values_spec (gvs : List (ℕ × ℚ)) :
    (1e-15 ≤ (gvs.map fun p => p.2).sum →
      normalize_graph_values gvs
        = gvs.map (fun p => (p.1, p.2 / (gvs.map fun p => p.2).sum))
      ∧ ((normalize_graph_values gvs).map fun p => p.2).sum = 1
      ∧ (normalize_graph_values gvs).map Prod.fst = gvs.map Prod.fst)
    ∧ ((gvs.map fun p => p.2).sum < 1e-15 →
      normalize_graph_values gvs = gvs.map fun p => (p.1, 0)) := by
  constructor
  · intro hge
    have hpos : (0 : ℚ) < (gvs.map fun p => p.2).sum :=
      lt_of_lt_of_le (by norm_num) hge
    have heq : normalize_graph_values gvs
        = gvs.map (fun p => (p.1, p.2 / (gvs.map fun p => p.2).sum)) := by
      rw [normalize_graph_values, if_neg (not_lt.mpr hge)]
    refine ⟨heq, ?_, ?_⟩
    · rw [heq, List.map_map]
      have hcomp : ((fun p : ℕ × ℚ => p.2) ∘ fun p : ℕ × ℚ =>
            (p.1, p.2 / (gvs.map fun p => p.2).sum))
          = (fun v => v / (gvs.map fun p => p.2).sum) ∘ fun p : ℕ × ℚ => p.2 := by
        funext p; rfl
      rw [hcomp, ← List.map_map, list_sum_map_div]
      exact div_self (ne_of_gt hpos)
    · rw [heq, List.map_map]
      rfl
  · intro hlt
    rw [normalize_graph_values, if_pos hlt]

/-- C6 witness: a batch with total 2 and a batch with total 0. -/
theorem normalize_graph_values_spec_witness :
    (1e-15 ≤ (([((0 : ℕ), (2 : ℚ))].map fun p => p.2).sum)
      ∧ normalize_graph_values [((0 : ℕ), (2 : ℚ))] = [(0, 1)])
    ∧ ((([((7 : ℕ), (0 : ℚ))].map fun p => p.2).sum < 1e-15)
      ∧ normalize_graph_values [((7 : ℕ), (0 : ℚ))] = [(7, 0)]) := by
  constructor
  · refine ⟨by norm_num, ?_⟩
    have h := (normalize_graph_values_spec [((0 : ℕ), (2 : ℚ))]).1 (by norm_num)
    rw [h.1]; norm_num
  · refine ⟨by norm_num, ?_⟩
    have h := (normalize_graph_values_spec [((7 : ℕ), (0 : ℚ))]).2 (by norm_num)
    rw [h]
    rfl

/-! ### Claims about the centrality engine -/

/-- C3 counterexample: the one-entry vector `[10⁻¹⁶]` is non-negative
with a strictly positive maximum entry, but `normalize_ec` returns it
unchanged, so no entry of the output equals 1. -/
theorem normalize_ec_positive_max_counterexample :
    (0 : ℚ) < 1 / 10 ^ 16
    ∧ normalize_ec [(1 : ℚ) / 10 ^ 16] = [(1 : ℚ) / 10 ^ 16]
    ∧ ∀ w ∈ normalize_ec [(1 : ℚ) / 10 ^ 16], w ≠ 1 := by
  have heq : normalize_ec [(1 : ℚ) / 10 ^ 16] = [(1 : ℚ) / 10 ^ 16] := by
    rw [normalize_ec]
    simp only [List.foldl_cons, List.foldl_nil]
    rw [if_pos (by norm_num [max_def])]
  refine ⟨by norm_num, heq, ?_⟩
  intro w hw
  rw [heq, List.mem_singleton] at hw
  rw [hw]
  norm_num

/-- C3 (amended): for a non-negative vector whose maximum entry is at
least 1e-15, `normalize_ec` yields entries in [0, 1] with some entry
exactly 1 (so the maximum entry is exactly 1); when the maximum is below
1e-15 the vector is returned unchanged. -/
theorem normalize_ec_spec (ec : List ℚ) :
    (ec.foldl max 0 < 1e-15 → normalize_ec ec = ec)
    ∧ (1e-15 ≤ ec.foldl max 0 → (∀ v ∈ ec, 0 ≤ v) →
        (∀ w ∈ normalize_ec ec, 0 ≤ w ∧ w ≤ 1) ∧ (1 : ℚ) ∈ normalize_ec ec) := by
  constructor
  · intro hlt
    rw [normalize_ec, if_pos hlt]
  · intro hge hnn
    have hpos : (0 : ℚ) < ec.foldl max 0 := lt_of_lt_of_le (by norm_num) hge
    have heq : normalize_ec ec = ec.map fun v => v / ec.foldl max 0 := by
      rw [normalize_ec, if_neg (not_lt.mpr hge)]
    constructor
    · intro w hw
      rw [heq, List.mem_map] at hw
      obtain ⟨v, hv, rfl⟩ := hw
      exact ⟨div_nonneg (hnn v hv) (le_of_lt hpos),
        (div_le_one hpos).mpr (mem_le_foldl_max ec 0 v hv)⟩
    · rcases foldl_max_mem ec 0 with hzero | hmem
      · rw [hzero] at hpos
        exact absurd hpos (lt_irrefl 0)
      · rw [heq, List.mem_map]
        exact ⟨ec.foldl max 0, hmem, div_self (ne_of_gt hpos)⟩

/-- C3 witness: below-threshold vector unchanged; above-threshold vector
contains the entry 1. -/
theorem normalize_ec_spec_witness :
    (([(1 : ℚ) / 10 ^ 16].foldl max 0 < 1e-15)
      ∧ normalize_ec [(1 : ℚ) / 10 ^ 16] = [(1 : ℚ) / 10 ^ 16])
    ∧ ((1e-15 ≤ [(2 : ℚ)].foldl max 0) ∧ (1 : ℚ) ∈ normalize_ec [(2 : ℚ)]) := by
  constructor
  · exact ⟨by norm_num [max_def], (normalize_ec_spec [(1 : ℚ) / 10 ^ 16]).1
      (by norm_num [max_def])⟩
  · refine ⟨by norm_num [max_def], ?_⟩
    have h := (normalize_ec_spec [(2 : ℚ)]).2 (by norm_num [max_def])
      (by intro v hv; rw [List.mem_singleton] at hv; rw [hv]; norm_num)
    exact h.2

/-- C2: `graph_value` returns 0 exactly when total weight, raw
centrality or reputation is non-positive; for strictly positive inputs
the product `W^x̄ · x^(1-x̄) · r` is nonzero, whatever the normalized
centrality. -/
theorem graph_value_zero_iff (W xbar x r : ℝ) :
    graph_value W xbar x r = 0 ↔ (W ≤ 0 ∨ x ≤ 0 ∨ r ≤ 0) := by
  rw [graph_value]
  by_cases hg : W ≤ 0 ∨ x ≤ 0 ∨ r ≤ 0
  · rw [if_pos hg]
    exact iff_of_true rfl hg
  · rw [if_neg hg]
    push_neg at hg
    obtain ⟨hW, hx, hr⟩ := hg
    have hpos : 0 < W ^ xbar * x ^ (1 - xbar) * r :=
      mul_pos (mul_pos (Real.rpow_pos_of_pos hW xbar)
        (Real.rpow_pos_of_pos hx (1 - xbar))) hr
    simp only
    constructor
    · intro h0
      exact absurd h0 (ne_of_gt hpos)
    · intro h
      rcases h with h | h | h
      · exact absurd h (not_le.mpr hW)
      · exact absurd h (not_le.mpr hx)
      · exact absurd h (not_le.mpr hr)

/-- C7: at the endpoints of the normalized-centrality exponent the graph
value interpolates exactly: `graph_value W 1 x r = W·r` and
`graph_value W 0 x r = x·r` for strictly positive W, x, r. -/
theorem graph_value_endpoints (W x r : ℝ)
    (hW : 0 < W) (hx : 0 < x) (hr : 0 < r) :
    graph_value W 1 x r = W * r ∧ graph_value W 0 x r = x * r := by
  have hguard : ¬ (W ≤ 0 ∨ x ≤ 0 ∨ r ≤ 0) := by
    push_neg
    exact ⟨hW, hx, hr⟩
  constructor
  · rw [graph_value, if_neg hguard]
    simp only
    rw [Real.rpow_one, sub_self, Real.rpow_zero, mul_one]
  · rw [graph_value, if_neg hguard]
    simp only
    rw [Real.rpow_zero, sub_zero, Real.rpow_one, one_mul]

/-- C7 witness at W = 2, x = 3, r = 5. -/
theorem graph_value_endpoints_witness :
    (0 < (2 : ℝ)) ∧ (0 < (3 : ℝ)) ∧ (0 < (5 : ℝ))
    ∧ graph_value 2 1 3 5 = 2 * 5 ∧ graph_value 2 0 3 5 = 3 * 5 :=
  ⟨by norm_num, by norm_num, by norm_num,
   (graph_value_endpoints 2 3 5 (by norm_num) (by norm_num) (by norm_num)).1,
   (graph_value_endpoints 2 3 5 (by norm_num) (by norm_num) (by norm_num)).2⟩

/-- C8: on the all-zero matrix the loop body's norm is 0, so every entry
to the loop body returns its input unchanged (the norm check exits in the
first iteration), and `power_iteration` returns the all-ones vector. -/
theorem power_iteration_zero_matrix (n : ℕ) :
    (∀ (fuel : ℕ) (x : Fin n → ℝ),
        power_iteration_loop (square_matrix fun _ _ => (0 : ℝ)) (fuel + 1) x = x)
    ∧ power_iteration (fun _ _ : Fin n => (0 : ℝ)) = fun _ => 1 := by
  have hsq : ∀ i j : Fin n, square_matrix (fun _ _ => (0 : ℝ)) i j = 0 := by
    intro i j
    simp [square_matrix]
  have hloop : ∀ (fuel : ℕ) (x : Fin n → ℝ),
      power_iteration_loop (square_matrix fun _ _ => (0 : ℝ)) (fuel + 1) x = x := by
    intro fuel x
    rw [power_iteration_loop]
    simp only [hsq, zero_mul, Finset.sum_const_zero, mul_zero, Real.sqrt_zero]
    rw [if_pos (by norm_num)]
  refine ⟨hloop, ?_⟩
  funext i
  show |power_iteration_loop (square_matrix fun _ _ => (0 : ℝ)) 1000 (fun _ => 1) i| = 1
  rw [hloop 999 (fun _ => 1)]
  norm_num

end Marketplace
